import Mathlib

/-!
Shallow embedding of the `rula` linear-algebra library.

Rust `Vec<T>` is modelled as `List T`.  The capability bound `T: IsField<T>`
appearing throughout `vector.rs` and `full_matrix.rs` is not declared under the
provided sources; per the specification it is the Numerical capability
(`Zero + Add + AddAssign + Copy + Mul`) extended with compound multiplication
(`MulAssign`).  Operationally that is exactly an additive identity together
with addition and multiplication, so every generic definition below carries the
instance bounds `[Zero T] [Add T] [Mul T]`; compound assignment operators are
the same binary operations applied in place, and `Copy` is implicit in a
functional embedding.

Fallible operations (Rust slice indexing, which panics out of bounds) return
`Option`; in-place mutation is modelled by returning the new list.
-/

namespace Rula

/-! ### vector.rs -/

/-- Embedding of `vector::scale`: `for e in it { *e *= a; }` applied to a
mutable iterator over the whole vector. -/
def scale {T : Type} [Mul T] (it : List T) (a : T) : List T :=
  it.map (fun e => e * a)

/-- Embedding of `vector::zero`: `scale(it, T::zero())`. -/
def zero {T : Type} [Zero T] [Mul T] (it : List T) : List T :=
  scale it (0 : T)

/-- Embedding of `vector::dot`:
`u.iter().zip(v.iter()).fold(U::zero(), |res, (&x, &y)| res + x * y)`. -/
def dot {U : Type} [Zero U] [Add U] [Mul U] (u v : List U) : U :=
  (u.zip v).foldl (fun res p => res + p.1 * p.2) 0

/-- Embedding of `vector::lin_com`:
`u.iter().zip(v.iter()).map(|(&x, &y)| a * x + b * y).collect()`. -/
def lin_com {T : Type} [Add T] [Mul T] (a : T) (u : List T) (b : T)
    (v : List T) : List T :=
  (u.zip v).map (fun p => a * p.1 + b * p.2)

/-- Embedding of `vector::mlt_add`:
`for (eu, ev) in u.iter_mut().zip(v.iter()) { *eu += a.into() * (*ev).into(); }`.
The `Into` conversions are passed explicitly as `intoA` and `intoV`; the loop
stops at the shorter vector and the tail of `u` is returned unchanged. -/
def mlt_add {U A V : Type} [Add U] [Mul U] (intoA : A → U) (intoV : V → U)
    (u : List U) (a : A) (v : List V) : List U :=
  match u, v with
  | [], _ => []
  | us, [] => us
  | eu :: us, ev :: vs => (eu + intoA a * intoV ev) :: mlt_add intoA intoV us a vs

/-! ### full_matrix.rs -/

/-- Embedding of `FullMatrix<T>`: a flat row-major backing vector `data`
together with the two dimension fields. -/
structure FullMatrix (T : Type) where
  data : List T
  nrow : Nat
  ncol : Nat

/-- Embedding of `FullMatrix::get`: `&self.data[i * self.ncol + j]`.
Rust slice indexing panics when the flat offset is out of bounds, which the
embedding renders as `none`. -/
def FullMatrix.get {T : Type} (m : FullMatrix T) (i j : Nat) : Option T :=
  m.data.get? (i * m.ncol + j)

/-- Embedding of `RowIter<T>`: a borrowed matrix plus the row index `i` and
the cursor column index `j`. -/
structure RowIter (T : Type) where
  matrix : FullMatrix T
  i : Nat
  j : Nat

/-- Embedding of `ColIter<T>`: a borrowed matrix plus the cursor row index `i`
and the column index `j`. -/
structure ColIter (T : Type) where
  matrix : FullMatrix T
  i : Nat
  j : Nat

/-- Embedding of `Iterator::next` for `RowIter`: if `j < ncol`, yield
`matrix.get(i, j)` and advance `j`; otherwise signal exhaustion.  The outer
`Option` is the iterator protocol (`none` = exhausted); the inner `Option` is
the possibly panicking `get`. -/
def RowIter.next {T : Type} (it : RowIter T) :
    Option (Option T × RowIter T) :=
  if it.j < it.matrix.ncol then
    some (it.matrix.get it.i it.j, ⟨it.matrix, it.i, it.j + 1⟩)
  else
    none

/-- Embedding of `Iterator::next` for `ColIter`: if `i < nrow`, yield
`matrix.get(i, j)` and advance `i`; otherwise signal exhaustion. -/
def ColIter.next {T : Type} (it : ColIter T) :
    Option (Option T × ColIter T) :=
  if it.i < it.matrix.nrow then
    some (it.matrix.get it.i it.j, ⟨it.matrix, it.i + 1, it.j⟩)
  else
    none

/-- Embedding of `FullMatrix::iter_over_row`:
`RowIter { matrix: &self, i: i, j: 0 }`. -/
def FullMatrix.iter_over_row {T : Type} (m : FullMatrix T) (i : Nat) :
    RowIter T :=
  ⟨m, i, 0⟩

/-- Embedding of `FullMatrix::iter_over_column`:
`ColIter { matrix: &self, i: 0, j: j }`. -/
def FullMatrix.iter_over_column {T : Type} (m : FullMatrix T) (j : Nat) :
    ColIter T :=
  ⟨m, 0, j⟩

/-- Embedding of `FullMatrix::zero`:
`Self { data: vec![T::zero(); nrow * ncol], nrow: nrow, ncol: ncol }`. -/
def FullMatrix.zero (T : Type) [Zero T] (nrow ncol : Nat) : FullMatrix T :=
  ⟨List.replicate (nrow * ncol) (0 : T), nrow, ncol⟩

/-- Driving a row iterator: call `next` up to `fuel` times, collecting the
yielded items in order, and stop early when the iterator signals exhaustion. -/
def RowIter.take {T : Type} : RowIter T → Nat → List (Option T)
  | _, 0 => []
  | it, fuel + 1 =>
    match it.next with
    | none => []
    | some (v, it') => v :: it'.take fuel

/-- Driving a column iterator: call `next` up to `fuel` times, collecting the
yielded items in order, and stop early when the iterator signals exhaustion. -/
def ColIter.take {T : Type} : ColIter T → Nat → List (Option T)
  | _, 0 => []
  | it, fuel + 1 =>
    match it.next with
    | none => []
    | some (v, it') => v :: it'.take fuel

/-- The matrix values obtainable through the public interface: `FullMatrix`'s
`data` field is private and `FullMatrix::zero` is the only constructor, and
`get`/`iter_over_row`/`iter_over_column` only read; but `nrow` and `ncol` are
declared `pub`, so a client holding a mutable matrix can reassign either
dimension field at will after construction. -/
inductive FullMatrix.Reachable {T : Type} [Zero T] : FullMatrix T → Prop
  | zero (nrow ncol : Nat) : Reachable (FullMatrix.zero T nrow ncol)
  | setNrow {m : FullMatrix T} (hm : Reachable m) (n : Nat) :
      Reachable ⟨m.data, n, m.ncol⟩
  | setNcol {m : FullMatrix T} (hm : Reachable m) (n : Nat) :
      Reachable ⟨m.data, m.nrow, n⟩

/-! ### Helper lemmas -/

/-- Indexing a replicated list. -/
lemma replicate_get? {T : Type} (a : T) :
    ∀ (n k : Nat), (List.replicate n a).get? k =
      if k < n then some a else none := by
  intro n
  induction n with
  | zero => intro k; simp [List.replicate]
  | succ n ih =>
    intro k
    cases k with
    | zero => simp [List.replicate]
    | succ k => simpa [List.replicate, Nat.succ_lt_succ_iff] using ih k

/-- Valid indices of a zero matrix read back the scalar zero. -/
lemma zero_get {T : Type} [Zero T] (nrow ncol i j : Nat)
    (hi : i < nrow) (hj : j < ncol) :
    (FullMatrix.zero T nrow ncol).get i j = some 0 := by
  have hoff : i * ncol + j < nrow * ncol := by
    calc i * ncol + j < i * ncol + ncol := by omega
    _ = (i + 1) * ncol := by ring
    _ ≤ nrow * ncol := Nat.mul_le_mul_right _ hi
  simp [FullMatrix.get, FullMatrix.zero, replicate_get?, hoff]

/-- The `dot` fold over the zipped lists, with an arbitrary accumulator,
equals the fold over positions below the shorter length. -/
lemma dot_foldl_aux {T : Type} [Zero T] [Add T] [Mul T] :
    ∀ (u v : List T) (init : T),
      (u.zip v).foldl (fun res p => res + p.1 * p.2) init =
        (List.range (min u.length v.length)).foldl
          (fun res i => res + u.getD i 0 * v.getD i 0) init := by
  intro u
  induction u with
  | nil => intro v init; simp
  | cons x us ih =>
    intro v init
    cases v with
    | nil => simp
    | cons y vs =>
      simp only [List.zip_cons_cons, List.foldl_cons, List.length_cons,
        Nat.succ_min_succ, List.range_succ_eq_map, List.foldl_map,
        List.getD_cons_zero, List.getD_cons_succ]
      exact ih vs (init + x * y)

/-- The `dot` fold is symmetric in its two lists whenever the scalar
multiplication commutes. -/
lemma dot_comm_aux {T : Type} [Zero T] [Add T] [Mul T]
    (hc : ∀ x y : T, x * y = y * x) :
    ∀ (u v : List T) (init : T),
      (u.zip v).foldl (fun res p => res + p.1 * p.2) init =
        (v.zip u).foldl (fun res p => res + p.1 * p.2) init := by
  intro u
  induction u with
  | nil => intro v init; simp
  | cons x us ih =>
    intro v init
    cases v with
    | nil => simp
    | cons y vs =>
      simp only [List.zip_cons_cons, List.foldl_cons]
      rw [hc y x]
      exact ih vs (init + x * y)

/-- Folding the `dot` step over a zeroed vector leaves the accumulator. -/
lemma dot_zero_aux {T : Type} [NonUnitalNonAssocSemiring T] :
    ∀ (u : List T) (init : T),
      ((zero u).zip (zero u)).foldl (fun res p => res + p.1 * p.2) init =
        init := by
  intro u
  induction u with
  | nil => intro init; simp [zero, scale]
  | cons x us ih =>
    intro init
    have hz : zero (x :: us) = x * 0 :: zero us := rfl
    rw [hz, List.zip_cons_cons, List.foldl_cons]
    have hstep : init + x * 0 * (x * 0) = init := by
      rw [mul_zero, mul_zero, add_zero]
    rw [hstep]
    exact ih init

/-- Element `i` of `lin_com a u b v`, for `i` below the shorter length. -/
lemma lin_com_getD {T : Type} [Add T] [Mul T] (a b d : T) :
    ∀ (u v : List T) (i : Nat), i < min u.length v.length →
      (lin_com a u b v).getD i d = a * u.getD i d + b * v.getD i d := by
  intro u
  induction u with
  | nil => intro v i h; simp at h
  | cons x us ih =>
    intro v i h
    cases v with
    | nil => simp at h
    | cons y vs =>
      cases i with
      | zero => simp [lin_com]
      | succ i =>
        have h' : i < min us.length vs.length := by
          simp only [List.length_cons, Nat.succ_min_succ] at h
          omega
        simpa [lin_com] using ih vs i h'

/-- `mlt_add` preserves the length of its first argument. -/
lemma mlt_add_length {U A V : Type} [Add U] [Mul U]
    (intoA : A → U) (intoV : V → U) (a : A) :
    ∀ (u : List U) (v : List V),
      (mlt_add intoA intoV u a v).length = u.length := by
  intro u
  induction u with
  | nil => intro v; cases v <;> simp [mlt_add]
  | cons eu us ih =>
    intro v
    cases v with
    | nil => simp [mlt_add]
    | cons ev vs => simp [mlt_add, ih]

/-- Element `i` of `mlt_add`, for `i` below the shorter length. -/
lemma mlt_add_getD_lt {U A V : Type} [Add U] [Mul U]
    (intoA : A → U) (intoV : V → U) (a : A) (d : U) (dv : V) :
    ∀ (u : List U) (v : List V) (i : Nat), i < min u.length v.length →
      (mlt_add intoA intoV u a v).getD i d =
        u.getD i d + intoA a * intoV (v.getD i dv) := by
  intro u
  induction u with
  | nil => intro v i h; simp at h
  | cons eu us ih =>
    intro v i h
    cases v with
    | nil => simp at h
    | cons ev vs =>
      cases i with
      | zero => simp [mlt_add]
      | succ i =>
        have h' : i < min us.length vs.length := by
          simp only [List.length_cons, Nat.succ_min_succ] at h
          omega
        simpa [mlt_add] using ih vs i h'

/-- Element `i` of `mlt_add`, for `i` at or beyond the second vector's
length, is the corresponding element of `u`, unchanged. -/
lemma mlt_add_getD_ge {U A V : Type} [Add U] [Mul U]
    (intoA : A → U) (intoV : V → U) (a : A) (d : U) :
    ∀ (u : List U) (v : List V) (i : Nat), v.length ≤ i →
      (mlt_add intoA intoV u a v).getD i d = u.getD i d := by
  intro u
  induction u with
  | nil => intro v i h; cases v <;> simp [mlt_add]
  | cons eu us ih =>
    intro v i h
    cases v with
    | nil => simp [mlt_add]
    | cons ev vs =>
      cases i with
      | zero => simp at h
      | succ i =>
        have h' : vs.length ≤ i := by
          simp only [List.length_cons] at h
          omega
        simpa [mlt_add] using ih vs i h'

/-! ### Claim theorems for the vector layer -/

/-- C2: `dot u v` is the sum, for `i` from `0` to `min(len u, len v) - 1`, of
`u[i] * v[i]`, accumulated starting from the additive identity; `dot` is total
(no length-mismatch error), and `dot [1,2,3] [0,6,2] = 18`. -/
theorem dot_eq_fold_min {T : Type} [Zero T] [Add T] [Mul T] (u v : List T) :
    dot u v =
      (List.range (min u.length v.length)).foldl
        (fun res i => res + u.getD i 0 * v.getD i 0) 0 ∧
    dot ([1, 2, 3] : List Int) [0, 6, 2] = 18 := by
  exact ⟨dot_foldl_aux u v 0, by decide⟩

/-- C4: after `mlt_add u a v`, element `i` equals its old value plus
`intoA a * intoV v[i]` for every `i` below the shorter length, elements at or
beyond `len v` are unchanged, and the length of `u` is unchanged (the second
vector `v` is untouched: `mlt_add` only reads it). -/
theorem mlt_add_spec {U A V : Type} [Add U] [Mul U]
    (intoA : A → U) (intoV : V → U) (u : List U) (a : A) (v : List V)
    (d : U) (dv : V) :
    (mlt_add intoA intoV u a v).length = u.length ∧
    (∀ i, i < min u.length v.length →
      (mlt_add intoA intoV u a v).getD i d =
        u.getD i d + intoA a * intoV (v.getD i dv)) ∧
    (∀ i, v.length ≤ i →
      (mlt_add intoA intoV u a v).getD i d = u.getD i d) := by
  exact ⟨mlt_add_length intoA intoV a u v,
    fun i h => mlt_add_getD_lt intoA intoV a d dv u v i h,
    fun i h => mlt_add_getD_ge intoA intoV a d u v i h⟩

/-- C5: zeroing a vector and then taking its dot product with itself yields
the scalar zero, and `zero` is exactly `scale` by the scalar zero. -/
theorem zero_dot_zero {T : Type} [NonUnitalNonAssocSemiring T] (u : List T) :
    dot (zero u) (zero u) = 0 ∧ zero u = scale u 0 := by
  exact ⟨dot_zero_aux u 0, rfl⟩

/-- C6: for vectors over one scalar type whose multiplication commutes (as it
does for every primitive scalar type the library instantiates), the dot
product is commutative, including for vectors of differing lengths. -/
theorem dot_comm {T : Type} [Zero T] [Add T] [Mul T]
    (hc : ∀ x y : T, x * y = y * x) (u v : List T) :
    dot u v = dot v u := by
  exact dot_comm_aux hc u v 0

/-- Witness for C6 at a concrete pair of integer vectors of differing
lengths. -/
theorem dot_comm_witness :
    dot ([1, 2] : List Int) [3, 4, 5] = dot ([3, 4, 5] : List Int) [1, 2] :=
  dot_comm (fun x y => Int.mul_comm x y) [1, 2] [3, 4, 5]

/-- C7: `lin_com a u b v` has length `min (len u) (len v)`, its element `i`
is `a * u[i] + b * v[i]` for every `i` below that length (the inputs are only
read, never written), and `lin_com 2 [1,2] 1 [2,9,1] = [4,13]`. -/
theorem lin_com_spec {T : Type} [Add T] [Mul T] (a b : T) (u v : List T)
    (d : T) :
    (lin_com a u b v).length = min u.length v.length ∧
    (∀ i, i < min u.length v.length →
      (lin_com a u b v).getD i d = a * u.getD i d + b * v.getD i d) ∧
    lin_com 2 ([1, 2] : List Int) 1 [2, 9, 1] = [4, 13] := by
  refine ⟨?_, fun i h => lin_com_getD a b d u v i h, by decide⟩
  simp [lin_com]

/-- Witness for C7: the element-wise description evaluated at a concrete
index of concrete integer vectors. -/
theorem lin_com_spec_witness :
    (lin_com 2 ([1, 2] : List Int) 1 [2, 9, 1]).getD 1 0 =
      2 * ([1, 2] : List Int).getD 1 0 + 1 * ([2, 9, 1] : List Int).getD 1 0 :=
  (lin_com_spec 2 1 [1, 2] [2, 9, 1] 0).2.1 1 (by decide)

/-- Witness for C4: `mlt_add [1,2] 2 [2,9,1]` evaluated at index `1`. -/
theorem mlt_add_spec_witness :
    (mlt_add id id ([1, 2] : List Int) 2 [2, 9, 1]).getD 1 0 =
      ([1, 2] : List Int).getD 1 0 +
        id (2 : Int) * id (([2, 9, 1] : List Int).getD 1 0) :=
  (mlt_add_spec id id [1, 2] 2 [2, 9, 1] 0 0).2.1 1 (by decide)

/-- Driving a row iterator from column cursor `j` with any amount of fuel
yields the `get` values of the next `min fuel (ncol - j)` columns. -/
lemma rowIter_take_eq {T : Type} (m : FullMatrix T) (i : Nat) :
    ∀ (fuel j : Nat),
      RowIter.take ⟨m, i, j⟩ fuel =
        (List.range (min fuel (m.ncol - j))).map (fun k => m.get i (j + k)) := by
  intro fuel
  induction fuel with
  | zero => intro j; simp [RowIter.take]
  | succ fuel ih =>
    intro j
    by_cases h : j < m.ncol
    · have hnext : RowIter.next (⟨m, i, j⟩ : RowIter T) =
          some (m.get i j, ⟨m, i, j + 1⟩) := by
        simp [RowIter.next, h]
      have hnc : m.ncol - j = (m.ncol - (j + 1)) + 1 := by omega
      simp only [RowIter.take, hnext]
      have hfun : ((fun k => m.get i (j + k)) ∘ Nat.succ) =
          (fun k => m.get i (j + 1 + k)) := by
        funext k
        simp only [Function.comp_apply]
        congr 1
        omega
      rw [ih (j + 1), hnc, Nat.succ_min_succ, List.range_succ_eq_map,
        List.map_cons, List.map_map, hfun]
      simp
    · have hnext : RowIter.next (⟨m, i, j⟩ : RowIter T) = none := by
        simp [RowIter.next, h]
      have hnc : m.ncol - j = 0 := by omega
      simp [RowIter.take, hnext, hnc]

/-- Driving a column iterator from row cursor `i` with any amount of fuel
yields the `get` values of the next `min fuel (nrow - i)` rows. -/
lemma colIter_take_eq {T : Type} (m : FullMatrix T) (j : Nat) :
    ∀ (fuel i : Nat),
      ColIter.take ⟨m, i, j⟩ fuel =
        (List.range (min fuel (m.nrow - i))).map (fun k => m.get (i + k) j) := by
  intro fuel
  induction fuel with
  | zero => intro i; simp [ColIter.take]
  | succ fuel ih =>
    intro i
    by_cases h : i < m.nrow
    · have hnext : ColIter.next (⟨m, i, j⟩ : ColIter T) =
          some (m.get i j, ⟨m, i + 1, j⟩) := by
        simp [ColIter.next, h]
      have hnr : m.nrow - i = (m.nrow - (i + 1)) + 1 := by omega
      simp only [ColIter.take, hnext]
      have hfun : ((fun k => m.get (i + k) j) ∘ Nat.succ) =
          (fun k => m.get (i + 1 + k) j) := by
        funext k
        simp only [Function.comp_apply]
        have harg : i + Nat.succ k = i + 1 + k := by omega
        rw [harg]
      rw [ih (i + 1), hnr, Nat.succ_min_succ, List.range_succ_eq_map,
        List.map_cons, List.map_map, hfun]
      simp
    · have hnext : ColIter.next (⟨m, i, j⟩ : ColIter T) = none := by
        simp [ColIter.next, h]
      have hnr : m.nrow - i = 0 := by omega
      simp [ColIter.take, hnext, hnr]

/-- The private backing storage of an obtainable matrix is never mutated:
whatever the current (possibly reassigned) dimension fields say, the data is
still the all-zero list laid down by the constructor. -/
lemma reachable_data_zero {T : Type} [Zero T] (m : FullMatrix T)
    (hm : FullMatrix.Reachable m) :
    m.data = List.replicate m.data.length (0 : T) := by
  induction hm with
  | zero nrow ncol => simp [FullMatrix.zero]
  | setNrow hm n ih => exact ih
  | setNcol hm n ih => exact ih

/-- Any value an obtainable matrix's `get` successfully returns is the
scalar zero. -/
lemma reachable_get_zero {T : Type} [Zero T] (m : FullMatrix T)
    (hm : FullMatrix.Reachable m) (i j : Nat) (t : T)
    (h : m.get i j = some t) : t = 0 := by
  have hd := reachable_data_zero m hm
  rw [FullMatrix.get, hd, replicate_get?] at h
  by_cases hlt : i * m.ncol + j < m.data.length
  · rw [if_pos hlt] at h
    exact (Option.some.inj h).symm
  · rw [if_neg hlt] at h
    exact absurd h (by simp)

/-! ### Claim theorems for the matrix layer -/

/-- C1 (counterexample): the claim that `get i j` fails if and only if
`i ≥ nrow` or `j ≥ ncol` is false at the 2×3 zero matrix with `(i, j) = (0, 3)`:
there `j ≥ ncol`, yet the access succeeds and returns the element stored at
flat offset `0 * 3 + 3 = 3`, which is the element at position `(1, 0)`. -/
theorem get_bounds_claim_counterexample :
    3 ≥ (FullMatrix.zero Int 2 3).ncol ∧
    ¬ ((FullMatrix.zero Int 2 3).get 0 3 = none) ∧
    (FullMatrix.zero Int 2 3).get 0 3 = (FullMatrix.zero Int 2 3).get 1 0 := by
  decide

/-- C1 (amended): for a matrix satisfying the backing-length invariant,
`get i j` fails exactly when the flat row-major offset `i * ncol + j` falls
outside the backing storage, i.e. when `i * ncol + j ≥ nrow * ncol`; in
particular it always fails when `i ≥ nrow`, but an access with `j ≥ ncol`
whose flat offset is still in range succeeds, silently wrapping into a later
row. -/
theorem get_fails_iff_flat_oob (T : Type) (m : FullMatrix T)
    (hlen : m.data.length = m.nrow * m.ncol) (i j : Nat) :
    (m.get i j = none ↔ m.nrow * m.ncol ≤ i * m.ncol + j) ∧
    (m.nrow ≤ i → m.get i j = none) := by
  constructor
  · rw [FullMatrix.get, List.get?_eq_none, hlen]
  · intro hi
    rw [FullMatrix.get]
    apply List.get?_eq_none.mpr
    rw [hlen]
    calc m.nrow * m.ncol ≤ i * m.ncol := Nat.mul_le_mul_right _ hi
    _ ≤ i * m.ncol + j := Nat.le_add_right _ _

/-- Witness for the amended C1: on the 2×3 zero matrix, `get 2 0` fails. -/
theorem get_fails_iff_flat_oob_witness :
    (FullMatrix.zero Int 2 3).get 2 0 = none :=
  (get_fails_iff_flat_oob Int (FullMatrix.zero Int 2 3) (by decide) 2 0).2
    (by decide)

/-- C3: for a valid row index `i`, driving the row iterator (with enough fuel
to observe exhaustion) yields exactly the `ncol` values
`get i 0, …, get i (ncol - 1)` in order, after which `next` signals
exhaustion; symmetrically for a valid column index `j` and the `nrow` values
`get 0 j, …, get (nrow - 1) j`. -/
theorem iter_row_col_spec {T : Type} (m : FullMatrix T) (i j : Nat)
    (_hi : i < m.nrow) (_hj : j < m.ncol) :
    (m.iter_over_row i).take (m.ncol + 1) =
      (List.range m.ncol).map (fun c => m.get i c) ∧
    ((m.iter_over_row i).take (m.ncol + 1)).length = m.ncol ∧
    RowIter.next (⟨m, i, m.ncol⟩ : RowIter T) = none ∧
    (m.iter_over_column j).take (m.nrow + 1) =
      (List.range m.nrow).map (fun r => m.get r j) ∧
    ((m.iter_over_column j).take (m.nrow + 1)).length = m.nrow ∧
    ColIter.next (⟨m, m.nrow, j⟩ : ColIter T) = none := by
  have hrow : (m.iter_over_row i).take (m.ncol + 1) =
      (List.range m.ncol).map (fun c => m.get i c) := by
    rw [FullMatrix.iter_over_row, rowIter_take_eq]
    have hmin : min (m.ncol + 1) (m.ncol - 0) = m.ncol := by omega
    rw [hmin]
    apply List.map_congr_left
    intro k _
    rw [Nat.zero_add]
  have hcol : (m.iter_over_column j).take (m.nrow + 1) =
      (List.range m.nrow).map (fun r => m.get r j) := by
    rw [FullMatrix.iter_over_column, colIter_take_eq]
    have hmin : min (m.nrow + 1) (m.nrow - 0) = m.nrow := by omega
    rw [hmin]
    apply List.map_congr_left
    intro k _
    rw [Nat.zero_add]
  refine ⟨hrow, ?_, ?_, hcol, ?_, ?_⟩
  · rw [hrow]; simp
  · simp [RowIter.next]
  · rw [hcol]; simp
  · simp [ColIter.next]

/-- Witness for C3 on the 2×3 zero matrix at row 1 and column 2. -/
theorem iter_row_col_spec_witness :
    ((FullMatrix.zero Int 2 3).iter_over_row 1).take
        ((FullMatrix.zero Int 2 3).ncol + 1) =
      (List.range (FullMatrix.zero Int 2 3).ncol).map
        (fun c => (FullMatrix.zero Int 2 3).get 1 c) :=
  (iter_row_col_spec (FullMatrix.zero Int 2 3) 1 2 (by decide) (by decide)).1

/-- C8: `FullMatrix::zero nrow ncol` (both dimensions may be zero) has the
requested dimensions, a backing storage of exactly `nrow * ncol` elements,
and `get i j = some 0` for every valid pair of indices. -/
theorem zero_matrix_spec (T : Type) [Zero T] (nrow ncol : Nat) :
    (FullMatrix.zero T nrow ncol).nrow = nrow ∧
    (FullMatrix.zero T nrow ncol).ncol = ncol ∧
    (FullMatrix.zero T nrow ncol).data.length = nrow * ncol ∧
    ∀ i j, i < nrow → j < ncol →
      (FullMatrix.zero T nrow ncol).get i j = some 0 := by
  exact ⟨rfl, rfl, by simp [FullMatrix.zero],
    fun i j hi hj => zero_get nrow ncol i j hi hj⟩

/-- Witness for C8 on the 2×3 zero integer matrix. -/
theorem zero_matrix_spec_witness :
    (FullMatrix.zero Int 2 3).get 1 2 = some 0 :=
  (zero_matrix_spec Int 2 3).2.2.2 1 2 (by decide) (by decide)

/-- C9 (counterexample): the dimension fields do change after construction.
`nrow` and `ncol` are `pub` (full_matrix.rs line 16), so starting from
`FullMatrix::zero 2 3` a client can reassign `nrow` to 10, obtaining through
the public interface a matrix whose `nrow` differs from the constructed one
and on which `get 5 0` — indices valid for the reassigned dimensions — fails
instead of returning the scalar zero. -/
theorem reachable_claim_counterexample :
    FullMatrix.Reachable (⟨(FullMatrix.zero Int 2 3).data, 10, 3⟩ : FullMatrix Int) ∧
    (⟨(FullMatrix.zero Int 2 3).data, 10, 3⟩ : FullMatrix Int).nrow ≠
      (FullMatrix.zero Int 2 3).nrow ∧
    (5 : Nat) < (⟨(FullMatrix.zero Int 2 3).data, 10, 3⟩ : FullMatrix Int).nrow ∧
    (⟨(FullMatrix.zero Int 2 3).data, 10, 3⟩ : FullMatrix Int).get 5 0 = none := by
  refine ⟨?_, by decide, by decide, by decide⟩
  exact FullMatrix.Reachable.setNrow (FullMatrix.Reachable.zero 2 3) 10

/-- C9 (amended): `FullMatrix::zero` is the only constructor, the `data`
field is private, and no public operation (`get`, `iter_over_row`,
`iter_over_column`) mutates the matrix, so for every matrix obtainable
through the public interface the backing storage is still entirely scalar
zeros and every element successfully returned by `get` or by row/column
iteration equals the scalar type's zero; however `nrow` and `ncol` are
public fields a client can reassign after construction, so the dimensions
are not immutable, and after a reassignment an access at indices valid for
the new dimensions may fail rather than return an element. -/
theorem reachable_all_zero (T : Type) [Zero T] (m : FullMatrix T)
    (hm : FullMatrix.Reachable m) :
    m.data = List.replicate m.data.length 0 ∧
    (∀ i j t, m.get i j = some t → t = 0) ∧
    (∀ i fuel x, some x ∈ (m.iter_over_row i).take fuel → x = (0 : T)) ∧
    (∀ j fuel x, some x ∈ (m.iter_over_column j).take fuel → x = (0 : T)) := by
  refine ⟨reachable_data_zero m hm,
    fun i j t h => reachable_get_zero m hm i j t h, ?_, ?_⟩
  · intro i fuel x hx
    rw [FullMatrix.iter_over_row, rowIter_take_eq] at hx
    obtain ⟨k, _, hkx⟩ := List.mem_map.mp hx
    exact reachable_get_zero m hm i (0 + k) x hkx
  · intro j fuel x hx
    rw [FullMatrix.iter_over_column, colIter_take_eq] at hx
    obtain ⟨k, _, hkx⟩ := List.mem_map.mp hx
    exact reachable_get_zero m hm (0 + k) j x hkx

/-- Witness for the amended C9 at a matrix obtained from the 2×3 zero
constructor followed by a public reassignment of `nrow`: the private backing
storage is still all zeros. -/
theorem reachable_all_zero_witness :
    (⟨(FullMatrix.zero Int 2 3).data, 10, 3⟩ : FullMatrix Int).data =
      List.replicate
        (⟨(FullMatrix.zero Int 2 3).data, 10, 3⟩ : FullMatrix Int).data.length 0 :=
  (reachable_all_zero Int (⟨(FullMatrix.zero Int 2 3).data, 10, 3⟩ : FullMatrix Int)
    (FullMatrix.Reachable.setNrow (FullMatrix.Reachable.zero 2 3) 10)).1

/-- C10: for a matrix with the backing-length invariant, `ncol > 0`, and a
row index `i ≥ nrow`, `iter_over_row i` is created successfully (it is just
the cursor record), and the first `next` call does not signal exhaustion:
it attempts the access `get i 0`, i.e. flat offset `i * ncol`, which fails. -/
theorem row_iter_oob_first_next (T : Type) (m : FullMatrix T) (i : Nat)
    (hlen : m.data.length = m.nrow * m.ncol) (hc : 0 < m.ncol)
    (hi : m.nrow ≤ i) :
    m.iter_over_row i = (⟨m, i, 0⟩ : RowIter T) ∧
    (m.iter_over_row i).next = some (none, ⟨m, i, 1⟩) ∧
    m.get i 0 = m.data.get? (i * m.ncol) := by
  refine ⟨rfl, ?_, by rw [FullMatrix.get, Nat.add_zero]⟩
  have hnone : m.get i 0 = none := by
    rw [FullMatrix.get]
    apply List.get?_eq_none.mpr
    rw [hlen]
    calc m.nrow * m.ncol ≤ i * m.ncol := Nat.mul_le_mul_right _ hi
    _ ≤ i * m.ncol + 0 := Nat.le_add_right _ _
  rw [FullMatrix.iter_over_row, RowIter.next]
  simp [hc, hnone]

/-- Witness for C10 on the 2×3 zero matrix with out-of-range row index 5. -/
theorem row_iter_oob_first_next_witness :
    ((FullMatrix.zero Int 2 3).iter_over_row 5).next =
      some (none, (⟨FullMatrix.zero Int 2 3, 5, 1⟩ : RowIter Int)) :=
  (row_iter_oob_first_next Int (FullMatrix.zero Int 2 3) 5 (by decide)
    (by decide) (by decide)).2.1

end Rula
